import Mathlib

/-!
Shallow embedding of `AsyncConcatenatedSeekableFile`
(src/concatenated_seekable_file/AsyncConcatenatedSeekableFile.py).

Underlying sources are modelled after the collaborators the repository
itself exercises (`io.BytesIO`-like objects, see src/tests): a byte
content list, a per-source cursor kept in the stream state, a native seek
that either reports the requested offset even past the end (`BytesIO`
semantics, `clampSeek = false`) or clamps to the physical content length
(truncated-file semantics, `clampSeek = true`), and capability flags.
Capability queries on a closed source raise `ValueError`, as `io.BytesIO`
does.  Machine integers are `Int`/`Nat` (Python integers are unbounded).
Fallible operations return an `Except` value together with the state at
the moment control returns, so that partially-mutated error states match
the Python object's attributes after an exception.
-/

namespace ConcatFile

/-- One underlying source (an `io.IOBase`-like collaborator of the class). -/
structure Source where
  content : List Nat
  clampSeek : Bool
  rdable : Bool
  skable : Bool
deriving DecidableEq, Repr

/-- Errors surfaced by the stream or its sources: `ValueError` on a closed
file, `io.UnsupportedOperation`, the `ValueError` for a bad whence,
`ValueError` for a negative native seek target, `ValueError` from
`bytearray` of a negative size, and `IndexError` from indexing past the
file table. -/
inductive Err where
  | closedFile
  | unsupportedOp
  | badWhence
  | negSeek
  | negSize
  | indexErr
deriving DecidableEq, Repr

/-- Native `f.seek(p, SEEK_SET)`: negative targets raise; a `BytesIO`-like
source reports the requested position even past its end, a clamping
(truncated-file) source reports `min p (physical length)`. -/
def srcSeek (s : Source) (p : Int) : Except Err Nat :=
  if p < 0 then .error .negSeek
  else .ok (if s.clampSeek then min p.toNat s.content.length else p.toNat)

/-- Native `f.read(amount)` from cursor `cur`: a negative amount reads the
whole rest, otherwise at most `amount` bytes. -/
def srcRead (s : Source) (cur : Nat) (amount : Int) : List Nat :=
  if amount < 0 then s.content.drop cur
  else (s.content.drop cur).take amount.toNat

/-- Native `f.readable()`: raises `ValueError` on a closed source. -/
def srcReadable (closed : Bool) (s : Source) : Except Err Bool :=
  if closed then .error .closedFile else .ok s.rdable

/-- Native `f.seekable()`: raises `ValueError` on a closed source. -/
def srcSeekable (closed : Bool) (s : Source) : Except Err Bool :=
  if closed then .error .closedFile else .ok s.skable

/-- State of an `AsyncConcatenatedSeekableFile` object: the source tuple
`files`, the length table `lengths` recorded at initialization, the
logical cursor `_pos`, the active index `_file_index`, the cached active
offset `_file_pos`, the native cursor of every source, and the closed
flags of the stream and of the sources. -/
structure CSF where
  files : List Source
  lengths : List Nat
  pos : Int
  fileIndex : Nat
  filePos : Nat
  cursors : List Nat
  closed : Bool
  filesClosed : Bool
deriving DecidableEq, Repr

namespace CSF

/-- The while loop of `_recalc_file` (lines 106-108): starting at index
`i`, subtract lengths while `pos >= lengths[idx]` and `idx + 1 < len(files)`.
The loop's bound `idx + 1 < len(files)` is rendered structurally as "at
least two entries remain", which coincides with the Python code whenever
`len(lengths) = len(files)` (true for every initialized stream). -/
def walk : List Nat → Int → Nat → Nat × Int
  | l :: l2 :: rest, p, i =>
    if (l : Int) ≤ p then walk (l2 :: rest) (p - l) (i + 1) else (i, p)
  | _, p, i => (i, p)

/-- `len(self)` (line 93-94): sum of the length table. -/
def totalLen (st : CSF) : Int := (st.lengths.sum : Int)

/-- `_call_on_all_files` via `asyncio.gather` for a capability query:
results in order, the first raising source's error propagates. -/
def callAll (g : Source → Except Err Bool) : List Source → Except Err (List Bool)
  | [] => .ok []
  | f :: fs =>
    match g f with
    | .error e => .error e
    | .ok b =>
      match callAll g fs with
      | .error e => .error e
      | .ok bs => .ok (b :: bs)

/-- `readable` (lines 175-177): `not self.closed and all(f.readable())`,
with Python short-circuiting on a closed stream. -/
def readable (st : CSF) : Except Err Bool :=
  if st.closed then .ok false
  else
    match callAll (srcReadable st.filesClosed) st.files with
    | .error e => .error e
    | .ok bs => .ok (bs.all id)

/-- `seekable` (lines 219-221): `all(f.seekable())` — note: no check of
the stream's own closed flag. -/
def seekable (st : CSF) : Except Err Bool :=
  match callAll (srcSeekable st.filesClosed) st.files with
  | .error e => .error e
  | .ok bs => .ok (bs.all id)

/-- `_recalc_file` (lines 99-116): reset `_file_index`/`_file_pos`, walk
the length table, natively seek the found source to the candidate offset,
and on a mismatch shift `_pos` back by the difference.  On an error the
returned state holds the partial mutations made before the raise. -/
def recalc (st : CSF) : Except Err Unit × CSF :=
  let w := walk st.lengths st.pos 0
  let st1 : CSF := { st with fileIndex := w.1, filePos := 0 }
  match st1.files[w.1]? with
  | none => (.error .indexErr, st1)
  | some f =>
    match srcSeek f w.2 with
    | .error e => (.error e, st1)
    | .ok fpos =>
      (.ok (),
        { st1 with
          pos := if (fpos : Int) = w.2 then st1.pos else st1.pos - (w.2 - (fpos : Int)),
          filePos := fpos,
          cursors := st1.cursors.set w.1 fpos })

/-- `tell` (lines 223-225): returns `_pos`; no closed check, no source
access, no state change. -/
def tell (st : CSF) : Except Err Int × CSF := (.ok st.pos, st)

/-- `seek` (lines 195-217). -/
def seek (st : CSF) (offset : Int) (whence : Nat) : Except Err Int × CSF :=
  if st.closed then (.error .closedFile, st)
  else
    match seekable st with
    | .error e => (.error e, st)
    | .ok false => (.error .unsupportedOp, st)
    | .ok true =>
      if whence = 0 ∨ whence = 1 ∨ whence = 2 then
        let base : Int := if whence = 0 then 0 else if whence = 1 then st.pos else totalLen st
        let st2 : CSF := { st with pos := base + offset }
        match recalc st2 with
        | (.error e, s) => (.error e, s)
        | (.ok _, s) => (.ok s.pos, s)
      else (.error .badWhence, st)

/-- `read1` (lines 153-173): the single-source chunked read. -/
def read1 (st : CSF) (amount : Int) : Except Err (List Nat) × CSF :=
  if st.closed then (.error .closedFile, st)
  else
    match readable st with
    | .error e => (.error e, st)
    | .ok false => (.error .unsupportedOp, st)
    | .ok true =>
      match st.files[st.fileIndex]?, st.cursors[st.fileIndex]?,
            st.lengths[st.fileIndex]? with
      | some f, some cur, some flen =>
        let fpos := st.filePos
        let val0 := srcRead f cur amount
        let maxLen : Nat := flen - fpos
        let val := if val0.length > maxLen then val0.take maxLen else val0
        let cur1 := cur + val0.length
        let st1 : CSF :=
          { st with filePos := cur1,
                    cursors := st.cursors.set st.fileIndex cur1,
                    pos := st.pos + (val.length : Int) }
        match recalc st1 with
        | (.error e, s) => (.error e, s)
        | (.ok _, s) => (.ok val, s)
      | _, _, _ => (.error .indexErr, st)

/-- Python slice assignment `buffer[i:i+len(data)] = data`. -/
def setSlice (buffer : List Nat) (i : Nat) (data : List Nat) : List Nat :=
  buffer.take i ++ data ++ buffer.drop (i + data.length)

/-- The while loop of `readinto` (lines 183-191), with explicit fuel.
Each productive iteration returns at least one byte (empty data breaks the
loop), so `buffer.length + 1` units of fuel make this exactly the
unbounded Python loop. -/
def readintoLoop : Nat → CSF → List Nat → Nat → Except Err Nat × List Nat × CSF
  | 0, st, buffer, dlen => (.ok dlen, buffer, st)
  | fuel + 1, st, buffer, dlen =>
    if dlen < buffer.length then
      match read1 st ((buffer.length : Int) - (dlen : Int)) with
      | (.error e, st') => (.error e, buffer, st')
      | (.ok data, st') =>
        if data = [] then (.ok dlen, buffer, st')
        else readintoLoop fuel st' (setSlice buffer dlen data) (dlen + data.length)
    else (.ok dlen, buffer, st)

/-- `readinto` (lines 179-193): fill `buffer` by looping `read1` until the
buffer is full or a read returns no data; returns the byte count. -/
def readinto (st : CSF) (buffer : List Nat) : Except Err Nat × List Nat × CSF :=
  readintoLoop (buffer.length + 1) st buffer 0

/-- `read` (lines 145-151): clamp the amount to the remaining length,
allocate `bytearray(amount)` (raises on a negative size), fill it with
`readinto` and return the whole buffer. -/
def read (st : CSF) (amount : Int) : Except Err (List Nat) × CSF :=
  let amount := if amount < 0 ∨ amount > totalLen st - st.pos then totalLen st - st.pos else amount
  if amount < 0 then (.error .negSize, st)
  else
    match readinto st (List.replicate amount.toNat 0) with
    | (.error e, _, st') => (.error e, st')
    | (.ok _, ba, st') => (.ok ba, st')

/-- `close` (lines 126-129): close every source, then set the flag. -/
def close (st : CSF) : CSF := { st with closed := true, filesClosed := true }

/-- The state right after `__init__` plus `__aenter__` (lines 62-91) on
`BytesIO`-like sources whose cursors start at 0: the length table records
each source's length as discovered by `_flen` (for a `BytesIO`, the length
of its buffer). -/
def init (files : List Source) : CSF :=
  { files := files
    lengths := files.map (fun f => f.content.length)
    pos := 0
    fileIndex := 0
    filePos := 0
    cursors := files.map (fun _ => 0)
    closed := false
    filesClosed := false }

/-- The logical stream content: the concatenation of the sources. -/
def fullBytes (st : CSF) : List Nat := (st.files.map (fun f => f.content)).flatten

/-- The sources physically hold exactly as many bytes as the length table
declares. -/
@[reducible] def ExactLengths (st : CSF) : Prop :=
  st.lengths = st.files.map (fun f => f.content.length)

/-- Model bookkeeping: one native cursor per source. -/
@[reducible] def CursorsWF (st : CSF) : Prop := st.cursors.length = st.files.length

/-- The stream and its sources are open. -/
@[reducible] def OpenState (st : CSF) : Prop := st.closed = false ∧ st.filesClosed = false

/-- Every source reports itself readable. -/
@[reducible] def AllRd (st : CSF) : Prop := st.files.all (fun f => f.rdable) = true

/-- Every source reports itself seekable. -/
@[reducible] def AllSk (st : CSF) : Prop := st.files.all (fun f => f.skable) = true

/-- The cached cursor state is the one `_recalc_file` produces for the
in-range logical position `p`. -/
@[reducible] def SyncedAt (st : CSF) (p : Nat) : Prop :=
  st.pos = (p : Int) ∧
  st.fileIndex = (walk st.lengths (p : Int) 0).1 ∧
  (st.filePos : Int) = (walk st.lengths (p : Int) 0).2 ∧
  st.cursors[st.fileIndex]? = some st.filePos

/-- Issue one `read(n)` per element of `ns`, collecting the returned byte
lists; an error stops the sequence. -/
def multiRead : CSF → List Nat → List (List Nat) × CSF
  | st, [] => ([], st)
  | st, n :: ns =>
    match read st (n : Int) with
    | (.ok v, st') =>
      let r := multiRead st' ns
      (v :: r.1, r.2)
    | (.error _, st') => ([], st')

/-- One public mutating operation: a seek or a chunked read. -/
inductive Op where
  | seekArgs (offset : Int) (whence : Nat)
  | readArgs (amount : Int)

/-- Run one operation, keeping the resulting state (error or not). -/
def execOp (st : CSF) : Op → CSF
  | .seekArgs o w => (seek st o w).2
  | .readArgs a => (read1 st a).2

/-- Run a sequence of seek / read_chunk operations. -/
def execOps (st : CSF) (ops : List Op) : CSF := ops.foldl execOp st

/-- A `BytesIO`-like source over the given bytes: readable, seekable, and
reporting the requested offset on seeks past its end. -/
def bSrc (content : List Nat) : Source :=
  { content := content, clampSeek := false, rdable := true, skable := true }

/-- A concrete three-source stream (lengths 2, 3, 1; 6 logical bytes). -/
def exampleStream : CSF := init [bSrc [0, 1], bSrc [2, 3, 4], bSrc [5]]

/-- A concrete two-source stream (lengths 2, 2; 4 logical bytes). -/
def twoSplit : CSF := init [bSrc [0, 1], bSrc [2, 3]]

/-- A stream whose declared length table was recorded as `[1, 0, 1]`:
its middle source is empty. -/
def zeroMid : CSF := init [bSrc [9], bSrc [], bSrc [8]]

/-- A stream whose single source physically holds five bytes although its
declared length is only 2 (a longer-than-declared, misbehaving source). -/
def longSrcStream : CSF :=
  { files := [{ content := [0, 1, 2, 3, 4], clampSeek := false, rdable := true, skable := true }]
    lengths := [2]
    pos := 0
    fileIndex := 0
    filePos := 0
    cursors := [0]
    closed := false
    filesClosed := false }

/-- A truncated source: physically two bytes, seeks clamp to its real end. -/
def clampSrc : Source :=
  { content := [7, 8], clampSeek := true, rdable := true, skable := true }

/-- A stream whose single source was recorded with length 4 at initialization
but physically shrank to 2 bytes, with the logical cursor at 3. -/
def shortSrcStream : CSF :=
  { files := [clampSrc]
    lengths := [4]
    pos := 3
    fileIndex := 0
    filePos := 0
    cursors := [0]
    closed := false
    filesClosed := false }

/-- A closed two-byte stream. -/
def closedStreamA : CSF := close (init [bSrc [0, 1]])

/-- Another closed stream, over a single one-byte source. -/
def closedStreamB : CSF := close (init [bSrc [3]])

/-! ### Properties of the length-table walk -/

theorem walk_cons2 (l l2 : Nat) (rest : List Nat) (p : Int) (i : Nat) :
    walk (l :: l2 :: rest) p i
      = if (l : Int) ≤ p then walk (l2 :: rest) (p - l) (i + 1) else (i, p) := rfl

theorem walk_single (l : Nat) (p : Int) (i : Nat) : walk [l] p i = (i, p) := rfl

theorem walk_spec : ∀ (L : List Nat) (p : Int) (i : Nat), 0 ≤ p → p ≤ (L.sum : Int) →
    L ≠ [] →
    ∃ (j : Nat) (lj : Nat), L[j]? = some lj ∧
      walk L p i = (i + j, p - ((L.take j).sum : Int)) ∧
      ((L.take j).sum : Int) ≤ p ∧
      p - ((L.take j).sum : Int) ≤ (lj : Int) ∧
      (p < ((L.take (j + 1)).sum : Int) ∨ j + 1 = L.length)
  | [], _, _, _, _, hne => absurd rfl hne
  | [x], p, i, h0, hp, _ => by
    refine ⟨0, x, rfl, by simp [walk], by simpa using h0, ?_, Or.inr rfl⟩
    simp only [List.sum_cons, List.sum_nil] at hp
    simp only [List.take_zero, List.sum_nil]
    omega
  | x :: y :: rest, p, i, h0, hp, _ => by
    rw [List.sum_cons] at hp
    by_cases hx : (x : Int) ≤ p
    · have hp' : p - x ≤ (((y :: rest).sum : Nat) : Int) := by omega
      obtain ⟨j, lj, hget, hwalk, h1, h2, h3⟩ :=
        walk_spec (y :: rest) (p - x) (i + 1) (by omega) hp' (by simp)
      have htake : ((x :: y :: rest).take (j + 1)).sum = x + ((y :: rest).take j).sum := by
        simp
      have htake2 : ((x :: y :: rest).take (j + 1 + 1)).sum
          = x + ((y :: rest).take (j + 1)).sum := by
        simp
      refine ⟨j + 1, lj, by simpa using hget, ?_, ?_, ?_, ?_⟩
      · rw [walk, if_pos hx, hwalk]
        simp only [Prod.mk.injEq, htake]
        exact ⟨by omega, by omega⟩
      · rw [htake]; omega
      · rw [htake]; omega
      · rcases h3 with h3 | h3
        · left; rw [htake2]; omega
        · right; simp only [List.length_cons] at h3 ⊢; omega
    · refine ⟨0, x, rfl, ?_, ?_, ?_, ?_⟩
      · rw [walk, if_neg hx]; simp
      · simpa using h0
      · simp only [List.take_zero, List.sum_nil]; omega
      · left
        have : ((x :: y :: rest).take 1).sum = x := by simp
        rw [this]; omega

theorem walk_ge : ∀ (L : List Nat) (p : Int) (i : Nat), (L.sum : Int) ≤ p → L ≠ [] →
    walk L p i = (i + (L.length - 1), p - ((L.take (L.length - 1)).sum : Int))
  | [], _, _, _, hne => absurd rfl hne
  | [x], p, i, _, _ => by simp [walk]
  | x :: y :: rest, p, i, hp, _ => by
    rw [List.sum_cons] at hp
    have hx : (x : Int) ≤ p := by omega
    have hp' : (((y :: rest).sum : Nat) : Int) ≤ p - x := by omega
    rw [walk, if_pos hx, walk_ge (y :: rest) (p - x) (i + 1) hp' (by simp)]
    have hlen : (x :: y :: rest).length - 1 = (y :: rest).length - 1 + 1 := by simp
    have hsum : ((x :: y :: rest).take ((y :: rest).length - 1 + 1)).sum
        = x + ((y :: rest).take ((y :: rest).length - 1)).sum := by
      simp
    simp only [Prod.mk.injEq, hlen, hsum]
    exact ⟨by omega, by omega⟩

/-! ### Properties of the resync algorithm -/

theorem exact_files_get (st : CSF) (hex : ExactLengths st) {j lj : Nat}
    (h : st.lengths[j]? = some lj) :
    ∃ f : Source, st.files[j]? = some f ∧ f.content.length = lj := by
  rw [hex, List.getElem?_map] at h
  obtain ⟨f, hf, hlen⟩ := Option.map_eq_some'.mp h
  exact ⟨f, hf, hlen⟩

theorem exact_lengths_ne_nil (st : CSF) (hex : ExactLengths st) (hne : st.files ≠ []) :
    st.lengths ≠ [] := by
  rw [hex]
  simpa using hne

theorem exact_lengths_len (st : CSF) (hex : ExactLengths st) :
    st.lengths.length = st.files.length := by
  rw [hex, List.length_map]

/-- On an exact-length stream with an in-range logical position, `_recalc_file`
succeeds, does not touch `_pos`, and caches the walk's index and offset. -/
theorem recalc_ok (st : CSF) (hex : ExactLengths st) (hne : st.files ≠ [])
    (h0 : 0 ≤ st.pos) (hp : st.pos ≤ totalLen st) :
    recalc st = (.ok (),
      { st with fileIndex := (walk st.lengths st.pos 0).1,
                filePos := (walk st.lengths st.pos 0).2.toNat,
                cursors := st.cursors.set (walk st.lengths st.pos 0).1
                  (walk st.lengths st.pos 0).2.toNat }) := by
  obtain ⟨j, lj, hget, hwalk, h1, h2, h3⟩ :=
    walk_spec st.lengths st.pos 0 h0 hp (exact_lengths_ne_nil st hex hne)
  rw [Nat.zero_add] at hwalk
  obtain ⟨f, hf, hflen⟩ := exact_files_get st hex hget
  have hseek : srcSeek f (st.pos - ((st.lengths.take j).sum : Int))
      = .ok (st.pos - ((st.lengths.take j).sum : Int)).toNat := by
    unfold srcSeek
    rw [if_neg (by omega)]
    congr 1
    by_cases hc : f.clampSeek
    · simp only [hc, if_pos, hflen]
      omega
    · simp [hc]
  simp only [recalc, hwalk, hf, hseek]
  rw [if_pos (by omega)]

theorem walk_props (L : List Nat) (p : Int) (h0 : 0 ≤ p) (hp : p ≤ (L.sum : Int))
    (hne : L ≠ []) :
    ∃ lj : Nat, L[(walk L p 0).1]? = some lj ∧
      (walk L p 0).2 = p - ((L.take (walk L p 0).1).sum : Int) ∧
      0 ≤ (walk L p 0).2 ∧ (walk L p 0).2 ≤ (lj : Int) ∧
      (p < ((L.take ((walk L p 0).1 + 1)).sum : Int) ∨ (walk L p 0).1 + 1 = L.length) := by
  obtain ⟨j, lj, hget, hwalk, h1, h2, h3⟩ := walk_spec L p 0 h0 hp hne
  rw [Nat.zero_add] at hwalk
  rw [hwalk]
  exact ⟨lj, hget, rfl, by omega, h2, h3⟩

/-- `_recalc_file` on an exact-length stream with an in-range position leaves
the state synchronized at that position. -/
theorem recalc_synced (st : CSF) (hex : ExactLengths st) (hne : st.files ≠ [])
    (hcur : CursorsWF st) (h0 : 0 ≤ st.pos) (hp : st.pos ≤ totalLen st) :
    SyncedAt (recalc st).2 st.pos.toNat := by
  obtain ⟨lj, hget, hcand, hc0, hcle, _⟩ := walk_props st.lengths st.pos h0 hp
    (exact_lengths_ne_nil st hex hne)
  have hj : (walk st.lengths st.pos 0).1 < st.cursors.length := by
    rw [hcur, ← exact_lengths_len st hex]
    exact (List.getElem?_eq_some.mp hget).1
  rw [recalc_ok st hex hne h0 hp]
  have hcast : ((st.pos.toNat : Nat) : Int) = st.pos := by omega
  refine ⟨by simpa using hcast.symm, by simp [hcast], by simp [hcast]; omega, ?_⟩
  simpa using List.getElem?_set_eq_of_lt _ hj

/-! ### Capability gates -/

theorem callAll_map (fs : List Source) (g : Source → Except Err Bool) (gv : Source → Bool)
    (h : ∀ f, g f = .ok (gv f)) : callAll g fs = .ok (fs.map gv) := by
  induction fs with
  | nil => rfl
  | cons f fs ih => simp [callAll, h f, ih]

theorem all_map_id (fs : List Source) (g : Source → Bool) :
    (fs.map g).all id = fs.all g := by
  induction fs with
  | nil => rfl
  | cons f t ih => simp only [List.map_cons, List.all_cons, ih, id]

theorem readable_open (st : CSF) (ho : OpenState st) (hr : AllRd st) :
    readable st = .ok true := by
  obtain ⟨hc, hfc⟩ := ho
  unfold readable
  rw [if_neg (by simp [hc])]
  rw [callAll_map st.files _ (fun f => f.rdable) (fun f => by simp [srcReadable, hfc])]
  simp only [Except.ok.injEq]
  rw [all_map_id]
  exact hr

theorem seekable_open (st : CSF) (hfc : st.filesClosed = false) (hs : AllSk st) :
    seekable st = .ok true := by
  unfold seekable
  rw [callAll_map st.files _ (fun f => f.skable) (fun f => by simp [srcSeekable, hfc])]
  simp only [Except.ok.injEq]
  rw [all_map_id]
  exact hs

/-! ### List helpers -/

theorem sum_take_get_le (L : List Nat) {j lj : Nat} (h : L[j]? = some lj) :
    (L.take j).sum + lj ≤ L.sum := by
  obtain ⟨hj, hv⟩ := List.getElem?_eq_some.mp h
  have hsplit := List.sum_take_add_sum_drop L j
  have hd : L.drop j = lj :: L.drop (j + 1) := by
    rw [List.drop_eq_getElem_cons hj, hv]
  rw [hd, List.sum_cons] at hsplit
  omega

theorem take_succ_sum (L : List Nat) {j lj : Nat} (h : L[j]? = some lj) :
    (L.take (j + 1)).sum = (L.take j).sum + lj := by
  rw [List.take_succ, h]
  simp

theorem sum_eq_take_get_of_last (L : List Nat) {j lj : Nat} (h : L[j]? = some lj)
    (hl : j + 1 = L.length) : L.sum = (L.take j).sum + lj := by
  obtain ⟨hj, hv⟩ := List.getElem?_eq_some.mp h
  have h1 := List.sum_take_add_sum_drop L j
  have hd : L.drop j = lj :: L.drop (j + 1) := by
    rw [List.drop_eq_getElem_cons hj, hv]
  have hd2 : L.drop (j + 1) = [] := List.drop_eq_nil_of_le (by omega)
  rw [hd, hd2] at h1
  simp at h1
  omega

theorem take_min_length (l : List Nat) (a : Nat) : l.take (min a l.length) = l.take a := by
  rcases Nat.le_total a l.length with h | h
  · rw [Nat.min_eq_left h]
  · rw [Nat.min_eq_right h, List.take_of_length_le h, List.take_of_length_le (by simp)]

theorem flatten_drop_at : ∀ (fs : List Source) (j : Nat) (f : Source), fs[j]? = some f →
    ∀ off : Nat, off ≤ f.content.length →
    ((fs.map (fun s => s.content)).flatten).drop
        (((fs.map (fun s => s.content.length)).take j).sum + off)
      = f.content.drop off ++ ((fs.drop (j + 1)).map (fun s => s.content)).flatten
  | [], j, f, hget, _, _ => by simp at hget
  | g :: t, 0, f, hget, off, hoff => by
    have hg : g = f := by simpa using hget
    subst hg
    simp only [List.map_cons, List.flatten_cons, List.take_zero, List.sum_nil, Nat.zero_add,
      List.drop_succ_cons, List.drop_zero]
    exact List.drop_append_of_le_length hoff
  | g :: t, j + 1, f, hget, off, hoff => by
    have hget' : t[j]? = some f := by simpa using hget
    have ih := flatten_drop_at t j f hget' off hoff
    simp only [List.map_cons, List.flatten_cons, List.take_succ_cons, List.sum_cons,
      List.drop_succ_cons, Nat.add_assoc]
    rw [List.drop_append]
    exact ih

/-! ### The single-source chunked read on a synchronized exact-length stream -/

theorem read1_ok (st : CSF) (p : Nat) (amount : Int)
    (hex : ExactLengths st) (hne : st.files ≠ []) (hcur : CursorsWF st)
    (ho : OpenState st) (hr : AllRd st)
    (hsy : SyncedAt st p) (hp : (p : Int) ≤ totalLen st) :
    ∃ (k : Nat) (st' : CSF),
      read1 st amount = (.ok (((fullBytes st).drop p).take k), st') ∧
      (0 ≤ amount → (k : Int) ≤ amount) ∧
      (1 ≤ amount → (p : Int) < totalLen st → 1 ≤ k) ∧
      (p : Int) + (k : Int) ≤ totalLen st ∧
      SyncedAt st' (p + k) ∧
      st'.files = st.files ∧ st'.lengths = st.lengths ∧
      st'.closed = st.closed ∧ st'.filesClosed = st.filesClosed ∧ CursorsWF st' := by
  obtain ⟨hpos, hidx, hfp, hcget⟩ := hsy
  obtain ⟨hc, hfc⟩ := ho
  have hLne := exact_lengths_ne_nil st hex hne
  obtain ⟨lj, hget, hcand, hc0, hcle, hlast⟩ :=
    walk_props st.lengths (p : Int) (by omega) hp hLne
  rw [← hidx] at hget hcand hlast
  have hfpv : (st.filePos : Int) = (p : Int) - ((st.lengths.take st.fileIndex).sum : Int) := by
    rw [hfp, hcand]
  obtain ⟨f, hf, hflen⟩ := exact_files_get st hex hget
  have hoffle : st.filePos ≤ lj := by omega
  have hpnat : p = (st.lengths.take st.fileIndex).sum + st.filePos := by omega
  have hsumle := sum_take_get_le st.lengths hget
  have hxlen : (f.content.drop st.filePos).length = lj - st.filePos := by
    rw [List.length_drop, hflen]
  have hval0 : srcRead f st.filePos amount
      = (f.content.drop st.filePos).take (srcRead f st.filePos amount).length := by
    unfold srcRead
    by_cases ha : amount < 0
    · rw [if_pos ha, List.take_length]
    · rw [if_neg ha, List.length_take, take_min_length]
  set k := (srcRead f st.filePos amount).length with hk
  have hkle' : k ≤ (f.content.drop st.filePos).length := by
    conv_lhs => rw [hk, hval0]
    rw [List.length_take]
    omega
  have hkle : k ≤ lj - st.filePos := by rw [hxlen] at hkle'; exact hkle'
  have hfull : (fullBytes st).drop p
      = f.content.drop st.filePos
        ++ ((st.files.drop (st.fileIndex + 1)).map (fun s => s.content)).flatten := by
    have hix := flatten_drop_at st.files st.fileIndex f hf st.filePos (by omega)
    rw [fullBytes, hpnat, hex]
    exact hix
  have hvalfull : srcRead f st.filePos amount = ((fullBytes st).drop p).take k := by
    rw [hfull, List.take_append_of_le_length hkle']
    exact hval0
  have htotalN : p + k ≤ st.lengths.sum := by omega
  have hfblen : (fullBytes st).length = st.lengths.sum := by
    rw [fullBytes, List.length_flatten, List.map_map, hex]
    rfl
  have hlen2 : (List.take k (List.drop p (fullBytes st))).length = k := by
    rw [List.length_take, List.length_drop, hfblen]
    omega
  have htotal : (p : Int) + (k : Int) ≤ totalLen st := by
    unfold totalLen
    omega
  have hmin : ¬ amount < 0 → k = min amount.toNat (lj - st.filePos) := by
    intro ha
    rw [hk]
    unfold srcRead
    rw [if_neg ha, List.length_take, hxlen]
  have hkam : 0 ≤ amount → (k : Int) ≤ amount := by
    intro ha
    have := hmin (by omega)
    omega
  have hprog : 1 ≤ amount → (p : Int) < totalLen st → 1 ≤ k := by
    intro ha hplt
    have hone : (p : Int) < ((st.lengths.take st.fileIndex).sum : Int) + (lj : Int) := by
      rcases hlast with hl | hl
      · rw [take_succ_sum st.lengths hget] at hl
        omega
      · have hs := sum_eq_take_get_of_last st.lengths hget hl
        unfold totalLen at hplt
        omega
    have hxpos : st.filePos < lj := by omega
    have := hmin (by omega)
    omega
  set ST1 : CSF := { st with
      filePos := st.filePos + k,
      cursors := st.cursors.set st.fileIndex (st.filePos + k),
      pos := st.pos + (k : Int) } with hST1
  have hex1 : ExactLengths ST1 := hex
  have hne1 : ST1.files ≠ [] := hne
  have hcur1 : CursorsWF ST1 := by
    show (st.cursors.set st.fileIndex (st.filePos + k)).length = st.files.length
    rw [List.length_set]
    exact hcur
  have h01 : 0 ≤ ST1.pos := by
    show 0 ≤ st.pos + (k : Int)
    omega
  have hp1 : ST1.pos ≤ totalLen ST1 := by
    show st.pos + (k : Int) ≤ (st.lengths.sum : Int)
    unfold totalLen at htotal
    omega
  have hrec := recalc_ok ST1 hex1 hne1 h01 hp1
  have hsy2 := recalc_synced ST1 hex1 hne1 hcur1 h01 hp1
  have htn : ST1.pos.toNat = p + k := by
    show (st.pos + (k : Int)).toNat = p + k
    omega
  rw [htn] at hsy2
  have hR : (recalc ST1).2 = { ST1 with
      fileIndex := (walk ST1.lengths ST1.pos 0).1,
      filePos := (walk ST1.lengths ST1.pos 0).2.toNat,
      cursors := ST1.cursors.set (walk ST1.lengths ST1.pos 0).1
        (walk ST1.lengths ST1.pos 0).2.toNat } := by
    rw [hrec]
  have hmain : read1 st amount = (.ok (((fullBytes st).drop p).take k), (recalc ST1).2) := by
    simp only [read1]
    rw [if_neg (by simp [hc])]
    rw [readable_open st ⟨hc, hfc⟩ hr]
    simp only [hf, hcget, hget]
    rw [← hk]
    rw [if_neg (by omega)]
    rw [hvalfull, hlen2]
    rw [← hST1, hrec]
  refine ⟨k, (recalc ST1).2, hmain, hkam, hprog, htotal, hsy2, ?_, ?_, ?_, ?_, ?_⟩
  · rw [hR]
  · rw [hR]
  · rw [hR]
  · rw [hR]
  · show ((recalc ST1).2).cursors.length = ((recalc ST1).2).files.length
    rw [hR]
    show (ST1.cursors.set _ _).length = st.files.length
    rw [List.length_set]
    exact hcur1

/-! ### Buffer slice assignment -/

theorem setSlice_length (B : List Nat) (i : Nat) (d : List Nat)
    (hid : i + d.length ≤ B.length) : (setSlice B i d).length = B.length := by
  rw [setSlice]
  simp only [List.length_append, List.length_take, List.length_drop]
  omega

theorem setSlice_nil (B : List Nat) (i : Nat) : setSlice B i [] = B := by
  simp [setSlice]

theorem setSlice_all (B d : List Nat) (h : d.length = B.length) :
    setSlice B 0 d = d := by
  simp [setSlice, h]

theorem setSlice_setSlice (B : List Nat) (i : Nat) (d t : List Nat) (hi : i ≤ B.length) :
    setSlice (setSlice B i d) (i + d.length) t = setSlice B i (d ++ t) := by
  have hlen : (B.take i ++ d).length = i + d.length := by
    rw [List.length_append, List.length_take]
    omega
  rw [setSlice, setSlice, setSlice, ← List.append_assoc]
  rw [List.take_append_of_le_length (le_of_eq hlen.symm)]
  rw [List.take_of_length_le (le_of_eq hlen)]
  rw [show i + d.length + t.length = (B.take i ++ d).length + t.length by omega]
  rw [List.drop_append, List.drop_drop]
  simp [List.append_assoc, Nat.add_assoc, Nat.add_comm t.length (i + d.length)]

theorem take_drop_len (st : CSF) (hex : ExactLengths st) (p k : Nat)
    (hpk : p + k ≤ st.lengths.sum) :
    (((fullBytes st).drop p).take k).length = k := by
  rw [List.length_take, List.length_drop]
  have : (fullBytes st).length = st.lengths.sum := by
    rw [fullBytes, List.length_flatten, List.map_map, hex]
    rfl
  omega

theorem fullBytes_congr {st st' : CSF} (h : st'.files = st.files) :
    fullBytes st' = fullBytes st := by
  rw [fullBytes, fullBytes, h]

theorem totalLen_congr {st st' : CSF} (h : st'.lengths = st.lengths) :
    totalLen st' = totalLen st := by
  rw [totalLen, totalLen, h]

/-! ### The bounded read loop -/

theorem readintoLoop_ok : ∀ (fuel : Nat) (st : CSF) (buffer : List Nat) (dlen p : Nat),
    ExactLengths st → st.files ≠ [] → CursorsWF st → OpenState st → AllRd st →
    SyncedAt st p → dlen ≤ buffer.length →
    (p : Int) + ((buffer.length : Int) - (dlen : Int)) ≤ totalLen st →
    buffer.length - dlen < fuel →
    ∃ st', readintoLoop fuel st buffer dlen
        = (.ok buffer.length,
           setSlice buffer dlen (((fullBytes st).drop p).take (buffer.length - dlen)), st') ∧
      SyncedAt st' (p + (buffer.length - dlen)) ∧
      st'.files = st.files ∧ st'.lengths = st.lengths ∧ st'.closed = st.closed ∧
      st'.filesClosed = st.filesClosed ∧ CursorsWF st'
  | 0, st, buffer, dlen, p, _, _, _, _, _, _, _, _, hfuel => by omega
  | fuel + 1, st, buffer, dlen, p, hex, hne, hcur, ho, hr, hsy, hdl, hpt, hfuel => by
    by_cases hfull : dlen < buffer.length
    · have hple : (p : Int) ≤ totalLen st := by omega
      obtain ⟨k, st2, hread, hklea, hprog, hpk, hsy2, hfi, hle, hcl, hfcl, hcw2⟩ :=
        read1_ok st p ((buffer.length : Int) - (dlen : Int)) hex hne hcur ho hr
          ⟨hsy.1, hsy.2.1, hsy.2.2.1, hsy.2.2.2⟩ hple
      have hk1 : 1 ≤ k := hprog (by omega) (by omega)
      have hkler : (k : Int) ≤ (buffer.length : Int) - (dlen : Int) := hklea (by omega)
      have hpkN : p + k ≤ st.lengths.sum := by
        have := hpk
        unfold totalLen at this
        omega
      have hdlen : (((fullBytes st).drop p).take k).length = k :=
        take_drop_len st hex p k hpkN
      have hdata_ne : ((fullBytes st).drop p).take k ≠ [] := by
        intro hcontra
        rw [hcontra] at hdlen
        simp at hdlen
        omega
      have hex2 : ExactLengths st2 := by rw [ExactLengths, hle, hfi]; exact hex
      have hne2 : st2.files ≠ [] := by rw [hfi]; exact hne
      have ho2 : OpenState st2 := ⟨by rw [hcl]; exact ho.1, by rw [hfcl]; exact ho.2⟩
      have hr2 : AllRd st2 := by rw [AllRd, hfi]; exact hr
      have hB'len : (setSlice buffer dlen (((fullBytes st).drop p).take k)).length
          = buffer.length := by
        rw [setSlice_length]
        rw [hdlen]
        omega
      have htot2 : totalLen st2 = totalLen st := totalLen_congr hle
      obtain ⟨st3, hloop, hsy3, h3fi, h3le, h3cl, h3fcl, h3cw⟩ :=
        readintoLoop_ok fuel st2 (setSlice buffer dlen (((fullBytes st).drop p).take k))
          (dlen + k) (p + k) hex2 hne2 hcw2 ho2 hr2 hsy2
          (by rw [hB'len]; omega)
          (by rw [hB'len, htot2]; push_cast; omega)
          (by rw [hB'len]; omega)
      rw [hB'len] at hsy3
      refine ⟨st3, ?_, ?_, by rw [h3fi, hfi], by rw [h3le, hle], by rw [h3cl, hcl],
        by rw [h3fcl, hfcl], h3cw⟩
      · rw [readintoLoop, if_pos hfull]
        simp only [hread]
        rw [if_neg hdata_ne, hdlen, hloop]
        rw [hB'len, fullBytes_congr hfi]
        rw [show dlen + k = dlen + (List.take k (List.drop p (fullBytes st))).length by
          rw [hdlen]]
        rw [setSlice_setSlice buffer dlen _ _ (by omega)]
        rw [hdlen]
        rw [show buffer.length - (dlen + k) = buffer.length - dlen - k by omega]
        rw [show (fullBytes st).drop (p + k) = ((fullBytes st).drop p).drop k by
          rw [List.drop_drop, Nat.add_comm]]
        rw [← List.take_add]
        rw [show k + (buffer.length - dlen - k) = buffer.length - dlen by omega]
      · rw [show p + (buffer.length - dlen) = p + k + (buffer.length - (dlen + k)) by omega]
        exact hsy3
    · have hdeq : dlen = buffer.length := by omega
      refine ⟨st, ?_, ?_, rfl, rfl, rfl, rfl, hcur⟩
      · rw [readintoLoop, if_neg hfull]
        rw [show buffer.length - dlen = 0 by omega, List.take_zero, setSlice_nil, hdeq]
      · rw [show buffer.length - dlen = 0 by omega, Nat.add_zero]
        exact hsy

/-- `readinto` on a synchronized exact-length stream fills the whole buffer
with the next `buffer.length` logical bytes. -/
theorem readinto_ok (st : CSF) (buffer : List Nat) (p : Nat)
    (hex : ExactLengths st) (hne : st.files ≠ []) (hcur : CursorsWF st)
    (ho : OpenState st) (hr : AllRd st) (hsy : SyncedAt st p)
    (hpt : (p : Int) + (buffer.length : Int) ≤ totalLen st) :
    ∃ st', readinto st buffer
        = (.ok buffer.length, ((fullBytes st).drop p).take buffer.length, st') ∧
      SyncedAt st' (p + buffer.length) ∧
      st'.files = st.files ∧ st'.lengths = st.lengths ∧ st'.closed = st.closed ∧
      st'.filesClosed = st.filesClosed ∧ CursorsWF st' := by
  obtain ⟨st', hloop, hsy', hfi, hle, hcl, hfcl, hcw⟩ :=
    readintoLoop_ok (buffer.length + 1) st buffer 0 p hex hne hcur ho hr hsy
      (by omega) (by push_cast; omega) (by omega)
  rw [Nat.sub_zero] at hloop
  rw [Nat.sub_zero] at hsy'
  have hptN : p + buffer.length ≤ st.lengths.sum := by
    unfold totalLen at hpt
    omega
  have hslice : setSlice buffer 0 (((fullBytes st).drop p).take buffer.length)
      = ((fullBytes st).drop p).take buffer.length :=
    setSlice_all _ _ (take_drop_len st hex p buffer.length hptN)
  rw [hslice] at hloop
  exact ⟨st', hloop, hsy', hfi, hle, hcl, hfcl, hcw⟩

/-- `read n` on a synchronized exact-length stream with `n` bytes remaining
returns exactly the next `n` logical bytes. -/
theorem read_ok (st : CSF) (p n : Nat)
    (hex : ExactLengths st) (hne : st.files ≠ []) (hcur : CursorsWF st)
    (ho : OpenState st) (hr : AllRd st) (hsy : SyncedAt st p)
    (hpt : (p : Int) + (n : Int) ≤ totalLen st) :
    ∃ st', read st (n : Int) = (.ok (((fullBytes st).drop p).take n), st') ∧
      SyncedAt st' (p + n) ∧
      st'.files = st.files ∧ st'.lengths = st.lengths ∧ st'.closed = st.closed ∧
      st'.filesClosed = st.filesClosed ∧ CursorsWF st' := by
  have hpos := hsy.1
  have hcl : ¬((n : Int) < 0 ∨ (n : Int) > totalLen st - st.pos) := by
    push_neg
    constructor
    · omega
    · rw [hpos]; omega
  obtain ⟨st', hri, hsy', hfi, hle, hclo, hfcl, hcw⟩ :=
    readinto_ok st (List.replicate n 0) p hex hne hcur ho hr hsy
      (by rw [List.length_replicate]; exact hpt)
  rw [List.length_replicate] at hri hsy'
  refine ⟨st', ?_, hsy', hfi, hle, hclo, hfcl, hcw⟩
  simp only [read]
  rw [if_neg hcl, if_neg (by omega : ¬ (n : Int) < 0)]
  rw [show (n : Int).toNat = n by omega]
  simp only [hri]

/-- Any split of `n` into a sequence of bounded reads concatenates to the
same `n` logical bytes that a single bounded read of `n` returns. -/
theorem multiRead_flatten : ∀ (ns : List Nat) (st : CSF) (p : Nat),
    ExactLengths st → st.files ≠ [] → CursorsWF st → OpenState st → AllRd st →
    SyncedAt st p → (p : Int) + (ns.sum : Int) ≤ totalLen st →
    (multiRead st ns).1.flatten = ((fullBytes st).drop p).take ns.sum
  | [], st, p, _, _, _, _, _, _, _ => by simp [multiRead]
  | n :: ns, st, p, hex, hne, hcur, ho, hr, hsy, hpt => by
    have hsum : (n :: ns).sum = n + ns.sum := List.sum_cons
    obtain ⟨st', hread, hsy', hfi, hle, hclo, hfcl, hcw⟩ :=
      read_ok st p n hex hne hcur ho hr hsy (by rw [hsum] at hpt; omega)
    have hex' : ExactLengths st' := by rw [ExactLengths, hle, hfi]; exact hex
    have hne' : st'.files ≠ [] := by rw [hfi]; exact hne
    have ho' : OpenState st' := ⟨by rw [hclo]; exact ho.1, by rw [hfcl]; exact ho.2⟩
    have hr' : AllRd st' := by rw [AllRd, hfi]; exact hr
    have ih := multiRead_flatten ns st' (p + n) hex' hne' hcw ho' hr' hsy'
      (by rw [totalLen_congr hle]; rw [hsum] at hpt; omega)
    rw [multiRead]
    simp only [hread]
    rw [List.flatten_cons, ih, fullBytes_congr hfi, hsum]
    rw [show (fullBytes st).drop (p + n) = ((fullBytes st).drop p).drop n by
      rw [List.drop_drop, Nat.add_comm]]
    rw [← List.take_add]

/-! ### Behavior at or past the end of the stream -/

theorem sum_take_le (L : List Nat) (j : Nat) : (L.take j).sum ≤ L.sum := by
  have := List.sum_take_add_sum_drop L j
  omega

/-- A state whose active source is the pinned last one, with its cached offset
at or past that source's physical end, is a fixpoint of `_recalc_file`. -/
theorem recalc_fix (st : CSF) (f : Source) (llast : Nat)
    (hne : st.files ≠ [])
    (hf : st.files[st.files.length - 1]? = some f)
    (hl : st.lengths[st.lengths.length - 1]? = some llast)
    (hlen : st.lengths.length = st.files.length)
    (hidx : st.fileIndex = st.files.length - 1)
    (hpos : st.pos = ((st.lengths.take (st.lengths.length - 1)).sum : Int) + (st.filePos : Int))
    (hcge : llast ≤ st.filePos)
    (hclamp : f.clampSeek = true → st.filePos = f.content.length)
    (hset : st.cursors.set st.fileIndex st.filePos = st.cursors) :
    recalc st = (.ok (), st) := by
  have hLne : st.lengths ≠ [] := by
    intro hnil
    rw [hnil] at hlen
    exact hne (List.length_eq_zero.mp hlen.symm)
  have hsum : st.lengths.sum = (st.lengths.take (st.lengths.length - 1)).sum + llast := by
    refine sum_eq_take_get_of_last st.lengths hl ?_
    have : 0 < st.lengths.length := List.length_pos.mpr hLne
    omega
  have hge : (st.lengths.sum : Int) ≤ st.pos := by
    rw [hpos]
    omega
  have hwalk := walk_ge st.lengths st.pos 0 hge hLne
  rw [Nat.zero_add] at hwalk
  have hcand : st.pos - ((st.lengths.take (st.lengths.length - 1)).sum : Int)
      = (st.filePos : Int) := by
    rw [hpos]
    omega
  rw [hcand] at hwalk
  have hf' : st.files[st.lengths.length - 1]? = some f := by
    rw [hlen]
    exact hf
  have hseek : srcSeek f (st.filePos : Int) = .ok st.filePos := by
    unfold srcSeek
    rw [if_neg (by omega)]
    congr 1
    by_cases hc : f.clampSeek
    · rw [if_pos hc, hclamp hc]
      simp
    · rw [if_neg hc]
      simp
  simp only [recalc, hwalk, hf', hseek, if_true]
  rw [show st.lengths.length - 1 = st.fileIndex by rw [hidx, hlen]]
  rw [hset]

/-- From a pinned-at-end fixpoint state, every `read1` call returns empty
bytes and leaves the state exactly unchanged. -/
theorem read1_at_end (S : CSF) (ho : OpenState S) (hr : AllRd S)
    (f : Source) (llast : Nat)
    (hf : S.files[S.fileIndex]? = some f)
    (hcg : S.cursors[S.fileIndex]? = some S.filePos)
    (hlg : S.lengths[S.fileIndex]? = some llast)
    (hclen : f.content.length ≤ S.filePos)
    (hset : S.cursors.set S.fileIndex S.filePos = S.cursors)
    (hrec : recalc S = (.ok (), S))
    (m : Int) : read1 S m = (.ok [], S) := by
  have hval0 : srcRead f S.filePos m = [] := by
    unfold srcRead
    have hd : f.content.drop S.filePos = [] := List.drop_eq_nil_of_le hclen
    by_cases hm : m < 0
    · rw [if_pos hm, hd]
    · rw [if_neg hm, hd, List.take_nil]
  simp only [read1]
  rw [if_neg (by simp [ho.1]), readable_open S ho hr]
  simp only [hf, hcg, hlg, hval0]
  rw [if_neg (by simp)]
  simp only [List.length_nil, Nat.add_zero, Nat.cast_zero, Int.add_zero]
  rw [hset]
  show (match recalc S with
        | (Except.error e, s) => (Except.error e, s)
        | (Except.ok _, s) => (Except.ok ([] : List Nat), s))
      = (Except.ok ([] : List Nat), S)
  rw [hrec]

theorem walk_boundary : ∀ (L : List Nat) (i acc : Nat), i + 1 < L.length →
    (L[i + 1]? ≠ some 0 ∨ i + 2 = L.length) →
    walk L (((L.take (i + 1)).sum : Nat) : Int) acc = (acc + (i + 1), 0)
  | [], _, _, hlt, _ => by simp at hlt
  | [l], _, _, hlt, _ => by simp at hlt
  | l :: l2 :: rest, 0, acc, hlt, hz => by
    rw [show (l :: l2 :: rest).take 1 = [l] from rfl]
    simp only [List.sum_cons, List.sum_nil, Nat.add_zero]
    rw [walk_cons2, if_pos (by omega)]
    rw [show (l : Int) - (l : Int) = (0 : Int) by omega]
    cases rest with
    | nil => rw [walk_single]
    | cons r t =>
      have hz2 : l2 ≠ 0 := by
        rcases hz with hz | hz
        · intro hc
          rw [hc] at hz
          simp at hz
        · simp at hz
      rw [walk_cons2, if_neg (by omega)]
  | l :: x :: t, i + 1, acc, hlt, hz => by
    have hlt' : i + 1 < (x :: t).length := by
      simp only [List.length_cons] at hlt ⊢
      omega
    have hz' : (x :: t)[i + 1]? ≠ some 0 ∨ i + 2 = (x :: t).length := by
      rcases hz with hz | hz
      · left
        simpa using hz
      · right
        simp only [List.length_cons] at hz ⊢
        omega
    have ih := walk_boundary (x :: t) i (acc + 1) hlt' hz'
    rw [List.take_succ_cons, List.sum_cons]
    rw [walk_cons2, if_pos (by omega)]
    rw [show ((l + ((x :: t).take (i + 1)).sum : Nat) : Int) - (l : Int)
        = ((((x :: t).take (i + 1)).sum : Nat) : Int) by omega]
    rw [ih]
    simp only [Prod.mk.injEq]
    exact ⟨by omega, trivial⟩

/-! ### Seeking from the start -/

/-- The `whence = SEEK_SET` path of `seek` on an open, all-seekable stream:
set `_pos` to the offset and resync. -/
theorem seek_set_reduce (st : CSF) (off : Int) (ho : OpenState st) (hs : AllSk st) :
    seek st off 0 =
      (match recalc { st with pos := off } with
       | (Except.error e, s) => (Except.error e, s)
       | (Except.ok _, s) => (Except.ok s.pos, s)) := by
  simp only [seek, ho.1, Bool.false_eq_true, if_false, seekable_open st ho.2 hs,
    true_or, if_true]
  rw [zero_add]

/-- `seek(p, SEEK_SET)` to an in-range position on an exact-length stream
returns `p` and synchronizes the cursor state at `p`. -/
theorem seek_set_ok (st : CSF) (p : Nat)
    (hex : ExactLengths st) (hne : st.files ≠ []) (hcur : CursorsWF st)
    (ho : OpenState st) (hs : AllSk st) (hp : (p : Int) ≤ totalLen st) :
    ∃ st', seek st (p : Int) 0 = (.ok (p : Int), st') ∧ SyncedAt st' p ∧
      st'.files = st.files ∧ st'.lengths = st.lengths ∧ st'.closed = st.closed ∧
      st'.filesClosed = st.filesClosed ∧ CursorsWF st' ∧
      st'.fileIndex = (walk st.lengths (p : Int) 0).1 ∧
      (st'.filePos : Int) = (walk st.lengths (p : Int) 0).2 := by
  have hex2 : ExactLengths { st with pos := (p : Int) } := hex
  have hne2 : ({ st with pos := (p : Int) } : CSF).files ≠ [] := hne
  have hcur2 : CursorsWF { st with pos := (p : Int) } := hcur
  have h02 : 0 ≤ ({ st with pos := (p : Int) } : CSF).pos := by
    show (0 : Int) ≤ (p : Int)
    omega
  have hp2 : ({ st with pos := (p : Int) } : CSF).pos
      ≤ totalLen { st with pos := (p : Int) } := hp
  have hrec := recalc_ok _ hex2 hne2 h02 hp2
  have hsy2 := recalc_synced _ hex2 hne2 hcur2 h02 hp2
  rw [show (({ st with pos := (p : Int) } : CSF).pos).toNat = p by
    show ((p : Int)).toNat = p
    omega] at hsy2
  rw [hrec] at hsy2
  obtain ⟨lj, hget, hcand, hc0, hcle, _⟩ :=
    walk_props st.lengths (p : Int) (by omega) hp (exact_lengths_ne_nil st hex hne)
  refine ⟨_, ?_, hsy2, rfl, rfl, rfl, rfl, ?_, rfl, ?_⟩
  · rw [seek_set_reduce st (p : Int) ho hs, hrec]
  · show (st.cursors.set (walk st.lengths (p : Int) 0).1 _).length = st.files.length
    rw [List.length_set]
    exact hcur
  · show (((walk st.lengths (p : Int) 0).2.toNat : Nat) : Int)
        = (walk st.lengths (p : Int) 0).2
    omega

/-- `seek(p, SEEK_SET)` to a position at or past `total_length` pins the last
source, and every subsequent `read1` returns empty bytes with the state
unchanged. -/
theorem seek_past_end (st : CSF) (pI : Int)
    (hex : ExactLengths st) (hne : st.files ≠ []) (hcur : CursorsWF st)
    (ho : OpenState st) (hs : AllSk st) (hr : AllRd st)
    (hp : totalLen st ≤ pI) :
    ∃ S, seek st pI 0 = (.ok S.pos, S) ∧ S.fileIndex = st.files.length - 1 ∧
      ∀ m : Int, read1 S m = (.ok [], S) := by
  have hLne := exact_lengths_ne_nil st hex hne
  have hNlen := exact_lengths_len st hex
  have hlpos : 0 < st.lengths.length := List.length_pos.mpr hLne
  obtain ⟨llast, hl⟩ : ∃ x, st.lengths[st.lengths.length - 1]? = some x :=
    ⟨_, List.getElem?_eq_getElem (by omega)⟩
  obtain ⟨f, hf0, hflen⟩ := exact_files_get st hex hl
  have hsum := sum_eq_take_get_of_last st.lengths hl (by omega)
  have hpge : (st.lengths.sum : Int) ≤ pI := hp
  have hwalk := walk_ge st.lengths pI 0 hpge hLne
  rw [Nat.zero_add] at hwalk
  have hoff0 : 0 ≤ pI - ((st.lengths.take (st.lengths.length - 1)).sum : Int) := by omega
  have hoffge : (llast : Int) ≤ pI - ((st.lengths.take (st.lengths.length - 1)).sum : Int) := by
    omega
  set offI : Int := pI - ((st.lengths.take (st.lengths.length - 1)).sum : Int) with hoffI
  set c : Nat := if f.clampSeek then min offI.toNat f.content.length else offI.toNat with hc
  have hcge : llast ≤ c := by
    rw [hc]
    by_cases hcl : f.clampSeek
    · rw [if_pos hcl, hflen]
      omega
    · rw [if_neg hcl]
      omega
  have hclampc : f.clampSeek = true → c = f.content.length := by
    intro hcl
    rw [hc, if_pos hcl, hflen]
    omega
  have hseek : srcSeek f offI = .ok c := by
    unfold srcSeek
    rw [if_neg (by omega)]
  have hposS : (if (c : Int) = offI then pI else pI - (offI - (c : Int)))
      = ((st.lengths.take (st.lengths.length - 1)).sum : Int) + (c : Int) := by
    by_cases heq : (c : Int) = offI
    · rw [if_pos heq]
      omega
    · rw [if_neg heq]
      omega
  set S : CSF := { st with
      fileIndex := st.lengths.length - 1,
      filePos := c,
      cursors := st.cursors.set (st.lengths.length - 1) c,
      pos := if (c : Int) = offI then pI else pI - (offI - (c : Int)) } with hS
  have hrecST2 : recalc { st with pos := pI } = (.ok (), S) := by
    have hf0' : ({ st with pos := pI } : CSF).files[st.lengths.length - 1]? = some f := hf0
    simp only [recalc, hwalk, hf0', hseek]
  have hseekeq : seek st pI 0 = (.ok S.pos, S) := by
    rw [seek_set_reduce st pI ho hs, hrecST2]
  have hidxS : S.fileIndex = st.files.length - 1 := by
    rw [hS]
    show st.lengths.length - 1 = st.files.length - 1
    rw [hNlen]
  have hcglt : st.lengths.length - 1 < st.cursors.length := by
    rw [hcur, ← hNlen]
    omega
  have hoS : OpenState S := ⟨ho.1, ho.2⟩
  have hrS : AllRd S := hr
  have hfS : S.files[S.fileIndex]? = some f := hf0
  have hcgS : S.cursors[S.fileIndex]? = some S.filePos := by
    rw [hS]
    exact List.getElem?_set_eq_of_lt c hcglt
  have hlgS : S.lengths[S.fileIndex]? = some llast := hl
  have hclenS : f.content.length ≤ S.filePos := by
    show f.content.length ≤ c
    rw [hflen]
    exact hcge
  have hsetS : S.cursors.set S.fileIndex S.filePos = S.cursors := by
    rw [hS]
    exact List.set_set ..
  have hposS2 : S.pos = ((S.lengths.take (S.lengths.length - 1)).sum : Int)
      + (S.filePos : Int) := hposS
  have hfS2 : S.files[S.files.length - 1]? = some f := by
    show st.files[st.files.length - 1]? = some f
    rw [← hNlen]
    exact hf0
  have hrecS : recalc S = (.ok (), S) :=
    recalc_fix S f llast hne hfS2 hl hNlen hidxS hposS2 hcge hclampc hsetS
  exact ⟨S, hseekeq, hidxS, fun m =>
    read1_at_end S hoS hrS f llast hfS hcgS hlgS hclenS hsetS hrecS m⟩

/-! ### The length table is never mutated -/

theorem recalc_preserve (st : CSF) :
    ((recalc st).2).lengths = st.lengths ∧ ((recalc st).2).files = st.files := by
  cases hf : st.files[(walk st.lengths st.pos 0).1]? with
  | none =>
    simp only [recalc, hf]
    exact ⟨by first | rfl | trivial, by first | rfl | trivial⟩
  | some f =>
    cases hs : srcSeek f (walk st.lengths st.pos 0).2 with
    | error e =>
      simp only [recalc, hf, hs]
      exact ⟨by first | rfl | trivial, by first | rfl | trivial⟩
    | ok fpos =>
      simp only [recalc, hf, hs]
      exact ⟨by first | rfl | trivial, by first | rfl | trivial⟩

theorem recalc_preserve_eq {st : CSF} {r : Except Err Unit} {s : CSF}
    (h : recalc st = (r, s)) : s.lengths = st.lengths ∧ s.files = st.files := by
  have hps := recalc_preserve st
  rw [h] at hps
  exact hps

theorem seek_preserve (st : CSF) (o : Int) (w : Nat) :
    ((seek st o w).2).lengths = st.lengths ∧ ((seek st o w).2).files = st.files := by
  by_cases hc : st.closed = true
  · simp only [seek, if_pos hc]
    exact ⟨by first | rfl | trivial, by first | rfl | trivial⟩
  · cases hsk : seekable st with
    | error e =>
      simp only [seek, if_neg hc, hsk]
      exact ⟨by first | rfl | trivial, by first | rfl | trivial⟩
    | ok b =>
      cases b with
      | false =>
        simp only [seek, if_neg hc, hsk]
        exact ⟨by first | rfl | trivial, by first | rfl | trivial⟩
      | true =>
        by_cases hw : w = 0 ∨ w = 1 ∨ w = 2
        · simp only [seek, if_neg hc, hsk, if_pos hw]
          split
          · rename_i e s heq
            have hps := recalc_preserve_eq heq
            exact hps
          · rename_i u s heq
            have hps := recalc_preserve_eq heq
            exact hps
        · simp only [seek, if_neg hc, hsk, if_neg hw]
          exact ⟨by first | rfl | trivial, by first | rfl | trivial⟩

theorem read1_preserve (st : CSF) (m : Int) :
    ((read1 st m).2).lengths = st.lengths ∧ ((read1 st m).2).files = st.files := by
  by_cases hc : st.closed = true
  · simp only [read1, if_pos hc]
    exact ⟨by first | rfl | trivial, by first | rfl | trivial⟩
  · cases hrd : readable st with
    | error e =>
      simp only [read1, if_neg hc, hrd]
      exact ⟨by first | rfl | trivial, by first | rfl | trivial⟩
    | ok b =>
      cases b with
      | false =>
        simp only [read1, if_neg hc, hrd]
        exact ⟨by first | rfl | trivial, by first | rfl | trivial⟩
      | true =>
        cases hf : st.files[st.fileIndex]? with
        | none =>
          simp only [read1, if_neg hc, hrd, hf]
          exact ⟨by first | rfl | trivial, by first | rfl | trivial⟩
        | some f =>
          cases hcu : st.cursors[st.fileIndex]? with
          | none =>
            simp only [read1, if_neg hc, hrd, hf, hcu]
            exact ⟨by first | rfl | trivial, by first | rfl | trivial⟩
          | some cur =>
            cases hfl : st.lengths[st.fileIndex]? with
            | none =>
              simp only [read1, if_neg hc, hrd, hf, hcu, hfl]
              exact ⟨by first | rfl | trivial, by first | rfl | trivial⟩
            | some flen =>
              simp only [read1, if_neg hc, hrd, hf, hcu, hfl]
              split
              · rename_i e s heq
                have hps := recalc_preserve_eq heq
                exact hps
              · rename_i u s heq
                have hps := recalc_preserve_eq heq
                exact hps

theorem execOp_lengths (st : CSF) (op : Op) : (execOp st op).lengths = st.lengths := by
  cases op with
  | seekArgs o w => exact (seek_preserve st o w).1
  | readArgs a => exact (read1_preserve st a).1

theorem execOps_lengths : ∀ (ops : List Op) (st : CSF),
    (execOps st ops).lengths = st.lengths
  | [], st => rfl
  | op :: ops, st => by
    show (execOps (execOp st op) ops).lengths = st.lengths
    rw [execOps_lengths ops (execOp st op), execOp_lengths]

/-! ### Behavior on a closed stream -/

theorem callAll_closed_err (g : Source → Except Err Bool) (f : Source) (fs : List Source)
    (h : g f = .error .closedFile) : callAll g (f :: fs) = .error .closedFile := by
  rw [callAll, h]

theorem closed_ops (st : CSF) (hc : st.closed = true) (hfc : st.filesClosed = true)
    (hne : st.files ≠ []) :
    (∀ o w, seek st o w = (.error .closedFile, st)) ∧
    (∀ m, read1 st m = (.error .closedFile, st)) ∧
    tell st = (.ok st.pos, st) ∧
    readable st = .ok false ∧
    seekable st = .error .closedFile := by
  obtain ⟨f, fs, hcons⟩ := List.exists_cons_of_ne_nil hne
  refine ⟨?_, ?_, rfl, ?_, ?_⟩
  · intro o w
    rw [seek, if_pos (by rw [hc])]
  · intro m
    rw [read1, if_pos (by rw [hc])]
  · rw [readable, if_pos (by rw [hc])]
  · rw [seekable, hcons,
      callAll_closed_err _ f fs (by rw [srcSeekable, if_pos (by rw [hfc])])]

theorem readable_eval (st : CSF) (hc : st.closed = false) (hfc : st.filesClosed = false) :
    readable st = .ok (st.files.all (fun f => f.rdable)) := by
  unfold readable
  rw [if_neg (by simp [hc])]
  rw [callAll_map st.files _ (fun f => f.rdable) (fun f => by simp [srcReadable, hfc])]
  show Except.ok ((st.files.map (fun f => f.rdable)).all id)
      = Except.ok (st.files.all (fun f => f.rdable))
  rw [all_map_id]

theorem seekable_eval (st : CSF) (hfc : st.filesClosed = false) :
    seekable st = .ok (st.files.all (fun f => f.skable)) := by
  unfold seekable
  rw [callAll_map st.files _ (fun f => f.skable) (fun f => by simp [srcSeekable, hfc])]
  show Except.ok ((st.files.map (fun f => f.skable)).all id)
      = Except.ok (st.files.all (fun f => f.skable))
  rw [all_map_id]

/-! ### Bad whence and reads past the end -/

theorem seek_bad_whence (st : CSF) (o : Int) (w : Nat)
    (ho : OpenState st) (hs : AllSk st) (h0 : w ≠ 0) (h1 : w ≠ 1) (h2 : w ≠ 2) :
    seek st o w = (.error .badWhence, st) := by
  simp only [seek, ho.1, Bool.false_eq_true, if_false, seekable_open st ho.2 hs]
  rw [if_neg (by omega)]

theorem read_past_end (st : CSF) (amount : Int) (hpe : totalLen st < st.pos) :
    read st amount = (.error .negSize, st) := by
  unfold read
  by_cases h : amount < 0 ∨ amount > totalLen st - st.pos
  · rw [if_pos h, if_pos (by omega)]
  · exact absurd h (by push_neg; omega)

/-- The clamp in `read1`: a successful chunked read never returns more than
`lengths[file_index] - file_pos` bytes (truncated subtraction, matching the
code's `max(..., 0)`), whatever the sources hold. -/
theorem read1_clamp (st : CSF) (m : Int) (v : List Nat) (st' : CSF) (flen : Nat)
    (hl : st.lengths[st.fileIndex]? = some flen)
    (h : read1 st m = (.ok v, st')) :
    v.length ≤ flen - st.filePos := by
  by_cases hc : st.closed = true
  · rw [read1, if_pos hc] at h
    simp at h
  · cases hrd : readable st with
    | error e =>
      simp only [read1, if_neg hc, hrd] at h
      simp at h
    | ok b =>
      cases b with
      | false =>
        simp only [read1, if_neg hc, hrd] at h
        simp at h
      | true =>
        cases hf : st.files[st.fileIndex]? with
        | none =>
          simp only [read1, if_neg hc, hrd, hf] at h
          simp at h
        | some f =>
          cases hcu : st.cursors[st.fileIndex]? with
          | none =>
            simp only [read1, if_neg hc, hrd, hf, hcu] at h
            simp at h
          | some cur =>
            simp only [read1, if_neg hc, hrd, hf, hcu, hl] at h
            split at h
            · simp at h
            · rename_i u s heq
              simp only [Prod.mk.injEq, Except.ok.injEq] at h
              rw [← h.1]
              split
              · rw [List.length_take]
                omega
              · omega

/-! ### Claims -/

/-- C1 counterexample: the zero-source stream is open with
`total_length = 0`, and `p = 0` lies in `[0, total_length]`, yet
`seek(0, FromStart)` raises an IndexError from the length-table walk
instead of returning 0. -/
theorem c1_counterexample :
    (init []).closed = false ∧ totalLen (init []) = 0 ∧
    (seek (init []) 0 0).1 = .error .indexErr ∧
    (seek (init []) 0 0).1 ≠ .ok 0 := by
  refine ⟨rfl, rfl, rfl, ?_⟩
  intro h
  rw [show (seek (init []) 0 0).1 = Except.error Err.indexErr from rfl] at h
  simp at h

/-- C1 (amended to streams with at least one source): for every open stream
whose sources hold exactly their declared lengths and are all seekable, and
every logical position `p` in `[0, total_length]`, `seek(p, FromStart)`
returns `p` and a `tell()` issued immediately afterwards also returns `p`. -/
theorem c1_seek_then_tell (st : CSF) (p : Nat)
    (hex : ExactLengths st) (hne : st.files ≠ []) (hcur : CursorsWF st)
    (ho : OpenState st) (hs : AllSk st) (hp : (p : Int) ≤ totalLen st) :
    (seek st (p : Int) 0).1 = .ok (p : Int) ∧
    (tell (seek st (p : Int) 0).2).1 = .ok (p : Int) := by
  obtain ⟨st', hseek, hsy, _, _, _, _, _, _, _⟩ := seek_set_ok st p hex hne hcur ho hs hp
  rw [hseek]
  refine ⟨rfl, ?_⟩
  show Except.ok st'.pos = Except.ok ((p : Nat) : Int)
  rw [hsy.1]

/-- Witness for C1 at the concrete three-source stream and `p = 3`. -/
theorem c1_witness :
    (ExactLengths exampleStream ∧ exampleStream.files ≠ [] ∧ CursorsWF exampleStream ∧
      OpenState exampleStream ∧ AllSk exampleStream ∧
      ((3 : Nat) : Int) ≤ totalLen exampleStream) ∧
    ((seek exampleStream ((3 : Nat) : Int) 0).1 = .ok ((3 : Nat) : Int) ∧
     (tell (seek exampleStream ((3 : Nat) : Int) 0).2).1 = .ok ((3 : Nat) : Int)) :=
  ⟨⟨by decide, by decide, by decide, by decide, by decide, by decide⟩,
   c1_seek_then_tell exampleStream 3 (by decide) (by decide) (by decide) (by decide)
     (by decide) (by decide)⟩

/-- C2 counterexample: with declared lengths `[1, 0, 1]`, seeking exactly to
the boundary 1 between source 0 and source 1 (0 is not the last index)
leaves the active index at 2, not at 1. -/
theorem c2_counterexample :
    (seek zeroMid 1 0).2.fileIndex = 2 ∧ (2 : Nat) ≠ 1 :=
  ⟨rfl, by decide⟩

/-- C2 (amended): seeking exactly to the boundary between source `i` and
source `i + 1` puts the active index at `i + 1` with active offset 0,
provided source `i + 1` has nonzero declared length or is the last source
(with a zero-length non-final source the walk skips further); and seeking
to any target at or past `total_length` pins the active index to the last
source and every subsequent `read1` returns empty bytes with the state
unchanged, no matter how far past the end the seek went. -/
theorem c2_boundary_and_past_end (st : CSF)
    (hex : ExactLengths st) (hne : st.files ≠ []) (hcur : CursorsWF st)
    (ho : OpenState st) (hs : AllSk st) (hr : AllRd st) :
    (∀ i li1, i + 1 < st.files.length → st.lengths[i + 1]? = some li1 →
      (li1 ≠ 0 ∨ i + 2 = st.files.length) →
      (seek st (((st.lengths.take (i + 1)).sum : Nat) : Int) 0).2.fileIndex = i + 1 ∧
      (seek st (((st.lengths.take (i + 1)).sum : Nat) : Int) 0).2.filePos = 0) ∧
    (∀ pI : Int, totalLen st ≤ pI →
      (seek st pI 0).2.fileIndex = st.files.length - 1 ∧
      ∀ m, read1 (seek st pI 0).2 m = (.ok [], (seek st pI 0).2)) := by
  constructor
  · intro i li1 hi hget hnz
    have hB : (((st.lengths.take (i + 1)).sum : Nat) : Int) ≤ totalLen st := by
      unfold totalLen
      exact_mod_cast sum_take_le st.lengths (i + 1)
    obtain ⟨st', hseek, hsy, hfiles, hlen, hcl, hfc, hcw, hidx, hfp⟩ :=
      seek_set_ok st ((st.lengths.take (i + 1)).sum) hex hne hcur ho hs hB
    have hwb := walk_boundary st.lengths i 0
      (by rw [exact_lengths_len st hex]; exact hi)
      (by rcases hnz with h | h
          · left
            rw [hget]
            simp only [ne_eq, Option.some.injEq]
            exact h
          · right
            rw [exact_lengths_len st hex]
            exact h)
    rw [Nat.zero_add] at hwb
    rw [hseek]
    constructor
    · show st'.fileIndex = i + 1
      rw [hidx, hwb]
    · show st'.filePos = 0
      have hz := hfp
      rw [hwb] at hz
      have hz2 : (st'.filePos : Int) = 0 := hz
      omega
  · intro pI hpI
    obtain ⟨S, hseekeq, hidxS, hread⟩ := seek_past_end st pI hex hne hcur ho hs hr hpI
    rw [hseekeq]
    exact ⟨hidxS, hread⟩

/-- Witness for C2 at the concrete three-source stream: the boundary 2
between sources 0 and 1, and a seek to 9 past the total length 6 followed
by a read of 5 bytes. -/
theorem c2_witness :
    (ExactLengths exampleStream ∧ exampleStream.files ≠ [] ∧ CursorsWF exampleStream ∧
      OpenState exampleStream ∧ AllSk exampleStream ∧ AllRd exampleStream) ∧
    ((seek exampleStream (((exampleStream.lengths.take 1).sum : Nat) : Int) 0).2.fileIndex
        = 1 ∧
     (seek exampleStream (((exampleStream.lengths.take 1).sum : Nat) : Int) 0).2.filePos
        = 0) ∧
    ((seek exampleStream 9 0).2.fileIndex = exampleStream.files.length - 1 ∧
     read1 (seek exampleStream 9 0).2 5 = (.ok [], (seek exampleStream 9 0).2)) := by
  have h := c2_boundary_and_past_end exampleStream (by decide) (by decide) (by decide)
    (by decide) (by decide) (by decide)
  refine ⟨⟨by decide, by decide, by decide, by decide, by decide, by decide⟩, ?_, ?_⟩
  · exact h.1 0 3 (by decide) (by decide) (by decide)
  · obtain ⟨h1, h2⟩ := h.2 9 (by decide)
    exact ⟨h1, h2 5⟩

/-- C3 counterexample: splitting `n = 4` into the raw `read_chunk` amounts
`[3, 1]` from position 0 of the two-source stream yields
`[0,1] ++ [2] = [0,1,2]`, while reading the same 4 bytes in one larger read
yields `[0,1,2,3]`: a raw chunked read stops at the source boundary, so the
concatenation drops a byte relative to the larger read. -/
theorem c3_counterexample :
    (read1 twoSplit 3).1 = .ok [0, 1] ∧
    (read1 (read1 twoSplit 3).2 1).1 = .ok [2] ∧
    (read twoSplit 4).1 = .ok [0, 1, 2, 3] ∧
    ([0, 1] ++ [2] : List Nat) ≠ [0, 1, 2, 3] :=
  ⟨rfl, rfl, rfl, by decide⟩

/-- C3 (amended): for bounded reads — the code's `read`, which loops
`read_chunk` until the requested amount is filled — any split of `n` into a
sequence of bounded-read amounts starting at a synchronized position `p`
with `p + n ≤ total_length` concatenates to exactly the same `n` logical
bytes as one larger bounded read of `n` (no byte read twice, none dropped).
Raw single `read_chunk` calls stop at source boundaries, so the claim holds
for the looping bounded reads, not for raw chunk calls. -/
theorem c3_split_reads (st : CSF) (p : Nat) (ns : List Nat)
    (hex : ExactLengths st) (hne : st.files ≠ []) (hcur : CursorsWF st)
    (ho : OpenState st) (hr : AllRd st) (hsy : SyncedAt st p)
    (hpt : (p : Int) + ((ns.sum : Nat) : Int) ≤ totalLen st) :
    (read st ((ns.sum : Nat) : Int)).1 = .ok (((fullBytes st).drop p).take ns.sum) ∧
    (multiRead st ns).1.flatten = ((fullBytes st).drop p).take ns.sum := by
  obtain ⟨st', hread, _, _, _, _, _, _⟩ := read_ok st p ns.sum hex hne hcur ho hr hsy hpt
  exact ⟨by rw [hread], multiRead_flatten ns st p hex hne hcur ho hr hsy hpt⟩

/-- Witness for C3 at the concrete three-source stream, `p = 0`, split
`[3, 2]` of `n = 5`. -/
theorem c3_witness :
    (ExactLengths exampleStream ∧ exampleStream.files ≠ [] ∧ CursorsWF exampleStream ∧
      OpenState exampleStream ∧ AllRd exampleStream ∧ SyncedAt exampleStream 0 ∧
      ((0 : Nat) : Int) + ((([3, 2] : List Nat).sum : Nat) : Int) ≤ totalLen exampleStream) ∧
    ((read exampleStream ((([3, 2] : List Nat).sum : Nat) : Int)).1
        = .ok (((fullBytes exampleStream).drop 0).take ([3, 2] : List Nat).sum) ∧
     (multiRead exampleStream [3, 2]).1.flatten
        = ((fullBytes exampleStream).drop 0).take ([3, 2] : List Nat).sum) :=
  ⟨⟨by decide, by decide, by decide, by decide, by decide, by decide, by decide⟩,
   c3_split_reads exampleStream 0 [3, 2] (by decide) (by decide) (by decide) (by decide)
     (by decide) (by decide) (by decide)⟩

/-- C4: for every state and every `read_chunk` call that returns bytes —
even when the active source's native read returns more data than its
declared length allows — the returned byte count never exceeds
`lengths[file_index] - file_pos` (the declared length of the active source
minus its cached offset before the read, truncated at zero exactly as the
code's `max(..., 0)`), so no source contributes bytes past its declared
boundary. -/
theorem c4_read_clamp (st : CSF) (m : Int) (v : List Nat) (st' : CSF) (flen : Nat)
    (hl : st.lengths[st.fileIndex]? = some flen)
    (h : read1 st m = (.ok v, st')) :
    v.length ≤ flen - st.filePos :=
  read1_clamp st m v st' flen hl h

/-- Witness for C4: a source physically holding 5 bytes but declared with
length 2 returns exactly 2 bytes to a `read_chunk` of 5. -/
theorem c4_witness :
    longSrcStream.lengths[longSrcStream.fileIndex]? = some 2 ∧
    read1 longSrcStream 5 = (.ok [0, 1], (read1 longSrcStream 5).2) ∧
    ([0, 1] : List Nat).length ≤ 2 - longSrcStream.filePos :=
  ⟨rfl, rfl,
   c4_read_clamp longSrcStream 5 [0, 1] (read1 longSrcStream 5).2 2 rfl rfl⟩

/-- C5: during resync, when the active source's native seek reports a
position `fpos` different from the candidate offset computed by the
length-table walk, the logical cursor decreases by exactly
`candidate - fpos` and the cached active offset becomes `fpos`. -/
theorem c5_short_source (st : CSF) (j : Nat) (cand : Int) (f : Source) (fpos : Nat)
    (hw : walk st.lengths st.pos 0 = (j, cand))
    (hf : st.files[j]? = some f)
    (hsk : srcSeek f cand = .ok fpos)
    (hneq : (fpos : Int) ≠ cand) :
    (recalc st).1 = .ok () ∧
    (recalc st).2.pos = st.pos - (cand - (fpos : Int)) ∧
    (recalc st).2.filePos = fpos := by
  simp only [recalc, hw, hf, hsk]
  rw [if_neg hneq]
  exact ⟨trivial, rfl, trivial⟩

/-- Witness for C5: a source declared with length 4 but physically holding
2 bytes; resyncing at logical position 3 clamps to 2, shrinking the cursor
by 1. -/
theorem c5_witness :
    walk shortSrcStream.lengths shortSrcStream.pos 0 = (0, 3) ∧
    shortSrcStream.files[0]? = some clampSrc ∧
    srcSeek clampSrc 3 = .ok 2 ∧
    ((2 : Nat) : Int) ≠ 3 ∧
    ((recalc shortSrcStream).1 = .ok () ∧
     (recalc shortSrcStream).2.pos = shortSrcStream.pos - (3 - ((2 : Nat) : Int)) ∧
     (recalc shortSrcStream).2.filePos = 2) :=
  ⟨rfl, rfl, rfl, by decide,
   c5_short_source shortSrcStream 0 3 clampSrc 2 rfl rfl rfl (by decide)⟩

/-- C6 counterexample: after `close()`, `tell()` silently returns the cursor
value instead of raising a closed-stream error. -/
theorem c6_counterexample :
    closedStreamA.closed = true ∧ (tell closedStreamA).1 = .ok 0 ∧
    ∀ e : Err, (tell closedStreamA).1 ≠ .error e := by
  refine ⟨rfl, rfl, ?_⟩
  intro e h
  simp [tell] at h

/-- C6 (amended): after `close()`, `seek` and `read_chunk` raise the
closed-file error; but `tell` silently returns the cursor, `readable`
silently returns false, and `seekable` propagates the closed-file error
raised by the (closed) underlying sources rather than checking the stream
flag itself. -/
theorem c6_closed_surface (st : CSF) (hne : st.files ≠ []) :
    (∀ o w, seek (close st) o w = (.error .closedFile, close st)) ∧
    (∀ m, read1 (close st) m = (.error .closedFile, close st)) ∧
    tell (close st) = (.ok st.pos, close st) ∧
    readable (close st) = .ok false ∧
    seekable (close st) = .error .closedFile :=
  closed_ops (close st) rfl rfl hne

/-- Witness for C6 at a concrete closed stream. -/
theorem c6_witness :
    (init [bSrc [0, 1]]).files ≠ [] ∧
    seek (close (init [bSrc [0, 1]])) 2 0
      = (.error .closedFile, close (init [bSrc [0, 1]])) ∧
    read1 (close (init [bSrc [0, 1]])) 1
      = (.error .closedFile, close (init [bSrc [0, 1]])) ∧
    tell (close (init [bSrc [0, 1]])) = (.ok 0, close (init [bSrc [0, 1]])) :=
  ⟨by decide,
   (c6_closed_surface (init [bSrc [0, 1]]) (by decide)).1 2 0,
   (c6_closed_surface (init [bSrc [0, 1]]) (by decide)).2.1 1,
   (c6_closed_surface (init [bSrc [0, 1]]) (by decide)).2.2.1⟩

/-- C7 counterexample: on a closed stream, `seekable()` does not return
false — it propagates the closed-file error coming from the sources. -/
theorem c7_counterexample :
    closedStreamB.closed = true ∧ seekable closedStreamB = .error .closedFile ∧
    seekable closedStreamB ≠ .ok false := by
  refine ⟨rfl, rfl, ?_⟩
  intro h
  rw [show seekable closedStreamB = .error .closedFile from rfl] at h
  simp at h

/-- C7 (amended): `readable()` returns true exactly when the stream is open
and every source reports readable, and returns false on a closed stream
without consulting sources; `seekable()` returns true exactly when every
source reports seekable (never on a closed stream, whose closed sources
raise), but on a closed stream it raises the sources' closed-file error
instead of returning false. -/
theorem c7_capabilities (st : CSF) (hne : st.files ≠ [])
    (hfc : st.filesClosed = st.closed) :
    (readable st = .ok true ↔
      st.closed = false ∧ st.files.all (fun f => f.rdable) = true) ∧
    (seekable st = .ok true ↔
      st.closed = false ∧ st.files.all (fun f => f.skable) = true) ∧
    (st.closed = true → readable st = .ok false ∧ seekable st = .error .closedFile) := by
  cases hcl : st.closed with
  | false =>
    rw [hcl] at hfc
    refine ⟨?_, ?_, fun h => absurd h (by simp)⟩
    · rw [readable_eval st hcl hfc]
      simp [hcl]
    · rw [seekable_eval st hfc]
      simp [hcl]
  | true =>
    obtain ⟨_, _, _, hrd, hsk⟩ := closed_ops st hcl (by rw [hfc, hcl]) hne
    refine ⟨?_, ?_, fun _ => ⟨hrd, hsk⟩⟩
    · rw [hrd]
      simp [hcl]
    · rw [hsk]
      simp [hcl]

/-- Witness for C7 at the concrete open three-source stream. -/
theorem c7_witness :
    (exampleStream.files ≠ [] ∧ exampleStream.filesClosed = exampleStream.closed) ∧
    ((readable exampleStream = .ok true ↔
        exampleStream.closed = false ∧
        exampleStream.files.all (fun f => f.rdable) = true) ∧
     (seekable exampleStream = .ok true ↔
        exampleStream.closed = false ∧
        exampleStream.files.all (fun f => f.skable) = true) ∧
     (exampleStream.closed = true →
        readable exampleStream = .ok false ∧
        seekable exampleStream = .error .closedFile)) :=
  ⟨⟨by decide, by decide⟩, c7_capabilities exampleStream (by decide) (by decide)⟩

/-- C8: for every initialized stream, `total_length` equals the sum of the
per-source declared lengths recorded at initialization, and the length
table — hence `total_length` — is unchanged by any sequence of seek and
read_chunk operations. -/
theorem c8_total_length_invariant (files : List Source) (ops : List Op) :
    (execOps (init files) ops).lengths = files.map (fun f => f.content.length) ∧
    totalLen (execOps (init files) ops)
      = (((files.map (fun f => f.content.length)).sum : Nat) : Int) := by
  have h := execOps_lengths ops (init files)
  constructor
  · rw [h]
    rfl
  · rw [totalLen, h]
    rfl

/-- C9: for every open, all-seekable stream, a seek with a whence value that
is not 0 (FromStart), 1 (FromCurrent) or 2 (FromEnd) raises the
invalid-argument error and leaves the state completely unchanged. -/
theorem c9_invalid_whence (st : CSF) (o : Int) (w : Nat)
    (ho : OpenState st) (hs : AllSk st)
    (h0 : w ≠ 0) (h1 : w ≠ 1) (h2 : w ≠ 2) :
    seek st o w = (.error .badWhence, st) :=
  seek_bad_whence st o w ho hs h0 h1 h2

/-- Witness for C9 at the concrete stream with whence 3. -/
theorem c9_witness :
    (OpenState exampleStream ∧ AllSk exampleStream ∧
      (3 : Nat) ≠ 0 ∧ (3 : Nat) ≠ 1 ∧ (3 : Nat) ≠ 2) ∧
    seek exampleStream 5 3 = (.error .badWhence, exampleStream) :=
  ⟨⟨by decide, by decide, by decide, by decide, by decide⟩,
   c9_invalid_whence exampleStream 5 3 (by decide) (by decide) (by decide) (by decide)
     (by decide)⟩

/-- C10: when the logical cursor is past `total_length` (reachable by seek),
every `read` call clamps its amount to the negative remainder and raises
the negative-size error from the buffer allocation instead of returning
empty bytes. -/
theorem c10_read_past_end_raises (st : CSF) (amount : Int)
    (hpe : totalLen st < st.pos) :
    read st amount = (.error .negSize, st) :=
  read_past_end st amount hpe

/-- Witness for C10: seek the concrete stream (total length 6) to 9, then
`read()` raises rather than returning empty bytes. -/
theorem c10_witness :
    totalLen ((seek exampleStream 9 0).2) < ((seek exampleStream 9 0).2).pos ∧
    read ((seek exampleStream 9 0).2) (-1)
      = (.error .negSize, (seek exampleStream 9 0).2) :=
  ⟨by decide, c10_read_past_end_raises ((seek exampleStream 9 0).2) (-1) (by decide)⟩

end CSF

end ConcatFile
